import Mathlib

/-!
Formal model of the Mixture-of-Experts dispatch core in
`src/mlx_lm/models/switch_layers.py`.

Embedding conventions:
* Scalars are rationals (`ℚ`); the elementwise activation functions are
  out-of-scope external unary functions (spec §1) and appear as an injected
  `ℚ → ℚ` field.
* A feature vector is a `Vec := List ℚ`; a matrix is a `Mat := List Vec`
  (list of rows); a stacked per-expert weight tensor is a
  `Tensor3 := List Mat` indexed by the expert axis.
* The token activation tensor of shape `[B, T, D]` is represented with the
  batch and time axes flattened into the list spine (`List Vec` of length
  `B*T`); the expert index tensor of shape `[B, T, K]` is a
  `List (List ℕ)` of length `B*T` whose rows have length `K`.  The source
  itself only ever flattens these leading axes together
  (`x.flatten(0, -3)`, `indices.flatten()`), so no claim distinguishes `B`
  from `T`.
* The two singleton axes inserted by `mx.expand_dims(x, (-2, -3))` are kept:
  after expansion each (token, slot) logical unit carries a `Mat` whose rows
  are the `[1, D]` block fed to the indexed matmul, and `squeeze(-2)`
  removes it again at the end.
* Out-of-scope collaborator primitives of the numeric substrate
  (`mx.argsort`, `mx.gather_mm`, `mx.gather_qmm`, `mx.quantize`) are
  modelled from the spec's collaborator contracts (spec §6); each such
  definition carries a doc comment saying what it models.
-/

abbrev Vec := List ℚ

abbrev Mat := List Vec

abbrev Tensor3 := List Mat

/-- Dot product of two feature vectors. -/
def dot (a b : Vec) : ℚ := (List.zipWith (· * ·) a b).sum

/-- Product of a row vector with the transpose of a weight matrix
`w : [output_dims, input_dims]`: entry `h` of the result is `⟨w h, v⟩`. -/
def matvecT (w : Mat) (v : Vec) : Vec := w.map (dot v)

/-- Elementwise sum of two vectors. -/
def vadd (a b : Vec) : Vec := List.zipWith (· + ·) a b

/-- Elementwise product of two matrices (the GLU gating multiply on one
logical unit). -/
def unitMul (a b : Mat) : Mat := List.zipWith (fun r s => List.zipWith (· * ·) r s) a b

/-- Elementwise application of a unary activation on one logical unit. -/
def unitMap (f : ℚ → ℚ) (u : Mat) : Mat := u.map (List.map f)

/-- Stable-sort key of position `i` of the value list `l`: the pair
`(l[i], i)` ordered lexicographically, encoded as `l[i] * l.length + i`
(well-defined because positions are below `l.length`). -/
def sortKey (l : List ℕ) (i : ℕ) : ℕ := l.getD i 0 * l.length + i

/-- Comparison of positions by stable-sort key. -/
def keyLe (l : List ℕ) (i j : ℕ) : Prop := sortKey l i ≤ sortKey l j

instance (l : List ℕ) : DecidableRel (keyLe l) := fun _ _ => Nat.decLe _ _

instance (l : List ℕ) : IsTotal ℕ (keyLe l) := ⟨fun _ _ => Nat.le_total _ _⟩

instance (l : List ℕ) : IsTrans ℕ (keyLe l) := ⟨fun _ _ _ => Nat.le_trans⟩

/-- Modelled from the spec: the consumed capability
`sort_stable(values) -> permutation` (`mx.argsort` at the call sites of
`_gather_sort`): the permutation of `[0, N)` that sorts `l` by value,
breaking ties by original position (stable sort). -/
def argsort (l : List ℕ) : List ℕ :=
  List.insertionSort (keyLe l) (List.range l.length)

/-- Model of `_gather_sort(x, indices)`.  `x` arrives with its leading
broadcast axes `[B, T, 1]` already flattened into the list spine (the
source's `x.flatten(0, -3)`), so each entry is the `[1, D]` block of one
token.  `M` is the last dimension of `indices` and the flattened `indices`
is sorted stably; position `i` of the reordered activations holds token
`order[i] / M`. -/
def _gather_sort (x : List Mat) (indices : List (List ℕ)) :
    List Mat × List ℕ × List ℕ :=
  let M := (indices.headD []).length
  let flat := indices.flatten
  let order := argsort flat
  let inv_order := argsort order
  (order.map fun o => x.getD (o / M) [],
   order.map fun o => flat.getD o 0,
   inv_order)

/-- Row-major reshape of a flat list into shape `[NT, K]` (the model of
`mx.unflatten(x, 0, shape)` for the flattened `indices.shape`). -/
def unflatten2 {α : Type} (NT K : ℕ) (d : α) (l : List α) : List (List α) :=
  (List.range NT).map fun t => (List.range K).map fun k => l.getD (t * K + k) d

/-- Model of `_scatter_unsort(x, inv_order, shape)`: index by the inverse
permutation (`x[inv_order]`) and reshape axis 0 back to the caller's
`indices.shape`, here `[NT, K]` with the batch and time axes flattened. -/
def _scatter_unsort (x : List Mat) (inv_order : List ℕ) (NT K : ℕ) :
    List (List Mat) :=
  unflatten2 NT K [] (inv_order.map fun j => x.getD j [])

/-- Modelled from the spec: the consumed capability `indexed_matmul` as used
at the source call site
`mx.gather_mm(x, self.weight.swapaxes(-1, -2), rhs_indices=indices, ...)`:
for each logical unit with rows `x[u]` and expert `i = indices[u]`, the
result rows are `x[u] · weight[i]ᵀ` (contraction over `input_dims`).  The
`sorted_indices` flag is the caller's performance hint and does not change
the value. -/
def gather_mm_t (x : List Mat) (w : Tensor3) (rhs_indices : List ℕ)
    (sorted_indices : Bool) : List Mat :=
  List.zipWith (fun rows i => rows.map fun r => matvecT (w.getD i []) r) x rhs_indices

/-- Model of the source line
`x + mx.expand_dims(self["bias"][indices], -2)`: the bias row of the
selected expert is broadcast over the extra singleton row axis of `x` and
added to every row of the unit. -/
def add_bias (y : List Mat) (b : Mat) (indices : List ℕ) : List Mat :=
  List.zipWith (fun rows i => rows.map fun r => vadd r (b.getD i [])) y indices

/-- Plain indexed linear unit: a per-expert weight tensor
`[num_experts, output_dims, input_dims]` and an optional per-expert bias
`[num_experts, output_dims]` (the source's dynamic `"bias" in self` test is
an `Option`). -/
structure SwitchLinear where
  weight : Tensor3
  bias : Option Mat

/-- Model of `SwitchLinear.__call__(x, indices, sorted_indices)` on a flat
list of logical units (the sorted path feeds `[N, 1, D]` against `[N]`). -/
def SwitchLinear.call (sl : SwitchLinear) (x : List Mat) (indices : List ℕ)
    (sorted_indices : Bool) : List Mat :=
  let y := gather_mm_t x sl.weight indices sorted_indices
  match sl.bias with
  | none => y
  | some b => add_bias y b indices

/-- Nested form of the modelled `indexed_matmul` for the unsorted path,
where the expanded `x` of leading shape `[NT, 1]` has already been
broadcast against `indices : [NT, K]` (numpy-style broadcasting replicates
the singleton axis along `K`): units are indexed by (token, slot). -/
def gather_mm_t_n (x : List (List Mat)) (w : Tensor3)
    (rhs_indices : List (List ℕ)) (sorted_indices : Bool) : List (List Mat) :=
  List.zipWith
    (fun us row =>
      List.zipWith (fun rows i => rows.map fun r => matvecT (w.getD i []) r) us row)
    x rhs_indices

/-- Nested form of the bias-adding line for the unsorted path. -/
def add_bias_n (y : List (List Mat)) (b : Mat) (indices : List (List ℕ)) :
    List (List Mat) :=
  List.zipWith
    (fun us row =>
      List.zipWith (fun rows i => rows.map fun r => vadd r (b.getD i [])) us row)
    y indices

/-- Model of `SwitchLinear.__call__` on the unsorted path, where the
leading dims of `x` broadcast over the `[NT, K]` shape of `indices`. -/
def SwitchLinear.callN (sl : SwitchLinear) (x : List (List Mat))
    (indices : List (List ℕ)) (sorted_indices : Bool) : List (List Mat) :=
  let y := gather_mm_t_n x sl.weight indices sorted_indices
  match sl.bias with
  | none => y
  | some b => add_bias_n y b indices

/-- Numpy-style broadcast of the expanded activations (leading shape
`[NT, 1]`) against an index tensor of shape `[NT, K]`: the singleton axis is
replicated along `K`. -/
def broadcastK (xe : List Mat) (indices : List (List ℕ)) : List (List Mat) :=
  List.zipWith (fun rows row => row.map fun _ => rows) xe indices

/-- Per-logical-unit semantics of the plain indexed linear unit: rows times
the selected expert's transposed weight, plus that expert's bias when one is
stored. -/
def SwitchLinear.unit (sl : SwitchLinear) (rows : Mat) (i : ℕ) : Mat :=
  match sl.bias with
  | none => rows.map fun r => matvecT (sl.weight.getD i []) r
  | some b => rows.map fun r => vadd (matvecT (sl.weight.getD i []) r) (b.getD i [])

/-- Property `input_dims`: read off the stored weight shape
(`self.weight.shape[2]`). -/
def SwitchLinear.input_dims (sl : SwitchLinear) : ℕ :=
  ((sl.weight.headD []).headD []).length

/-- Property `output_dims`: read off the stored weight shape
(`self.weight.shape[1]`). -/
def SwitchLinear.output_dims (sl : SwitchLinear) : ℕ :=
  (sl.weight.headD []).length

/-- Property `num_experts`: read off the stored weight shape
(`self.weight.shape[0]`). -/
def SwitchLinear.num_experts (sl : SwitchLinear) : ℕ :=
  sl.weight.length

/-- Groups of `g` consecutive entries of a row (`r.length / g` of them;
with `g ∣ r.length` this is an exact partition). -/
def groupChunks (g : ℕ) (r : Vec) : List Vec :=
  (List.range (r.length / g)).map fun j => (r.drop (j * g)).take g

/-- Scale of one quantization group (affine group-wise scheme). -/
def scaleOf (bits : ℕ) (c : Vec) : ℚ :=
  (c.foldr max 0 - c.foldr min 0) / (2 ^ bits - 1)

/-- Offset of one quantization group. -/
def offsetOf (c : Vec) : ℚ := c.foldr min 0

/-- Integer levels of one quantization group. -/
def levelsOf (bits : ℕ) (c : Vec) : Vec :=
  c.map fun v =>
    if scaleOf bits c = 0 then 0 else ((⌊(v - offsetOf c) / scaleOf bits c⌋ : ℤ) : ℚ)

/-- Modelled from the spec: the consumed capability
`quantize(tensor, group_size, bits) -> (packed, scales, biases)`
(`mx.quantize`), whose numeric kernel is out of scope.  The model keeps the
contract the core relies on: the leading `num_experts` and `output_dims`
axes are preserved, and each `group_size` consecutive input-dim elements
share one scale/offset pair, so `scales.shape[2] = input_dims / group_size`.
Levels are kept one per element (bit-packing is memory layout, out of
scope). -/
def quantize (w : Tensor3) (group_size bits : ℕ) : Tensor3 × Tensor3 × Tensor3 :=
  (w.map fun m => m.map fun r => ((groupChunks group_size r).map (levelsOf bits)).flatten,
   w.map fun m => m.map fun r => (groupChunks group_size r).map (scaleOf bits),
   w.map fun m => m.map fun r => (groupChunks group_size r).map offsetOf)

/-- Quantized indexed linear unit: packed levels, per-group scales and
offsets (the source field `biases`), an optional per-expert output bias, and
the quantization parameters. -/
structure QuantizedSwitchLinear where
  weight : Tensor3
  scales : Tensor3
  biases : Tensor3
  bias : Option Mat
  group_size : ℕ
  bits : ℕ

/-- Dequantization of one packed row of levels with its per-group scales
and offsets. -/
def dequantRow (lv sc off : Vec) (g : ℕ) : Vec :=
  lv.mapIdx fun d v => v * sc.getD (d / g) 0 + off.getD (d / g) 0

/-- Dequantization of one expert's packed weight matrix. -/
def dequantMat (pm sm bm : Mat) (g : ℕ) : Mat :=
  List.zipWith (fun lv p => dequantRow lv p.1 p.2 g) pm (sm.zip bm)

/-- Modelled from the spec: the consumed capability
`indexed_matmul_quantized` (`mx.gather_qmm` with `transpose=True`): for each
logical unit the rows are multiplied against the transposed dequantized
weight of the selected expert.  The spec's numeric contract is only "within
quantization error" of the plain computation; the model computes exactly
against the model `quantize` encoding.  The `sorted_indices` flag is a
performance hint and does not change the value. -/
def gather_qmm (x : List Mat) (pw s bs : Tensor3) (rhs_indices : List ℕ)
    (g bits : ℕ) (sorted_indices : Bool) : List Mat :=
  List.zipWith
    (fun rows i =>
      rows.map fun r => matvecT (dequantMat (pw.getD i []) (s.getD i []) (bs.getD i []) g) r)
    x rhs_indices

/-- Model of `QuantizedSwitchLinear.__call__(x, indices, sorted_indices)`
on a flat list of logical units. -/
def QuantizedSwitchLinear.call (q : QuantizedSwitchLinear) (x : List Mat)
    (indices : List ℕ) (sorted_indices : Bool) : List Mat :=
  let y := gather_qmm x q.weight q.scales q.biases indices q.group_size q.bits sorted_indices
  match q.bias with
  | none => y
  | some b => add_bias y b indices

/-- Property `input_dims` of the quantized unit: derived from the stored
scales shape and the group size (`self.scales.shape[2] * self.group_size`). -/
def QuantizedSwitchLinear.input_dims (q : QuantizedSwitchLinear) : ℕ :=
  ((q.scales.headD []).headD []).length * q.group_size

/-- Property `output_dims` of the quantized unit (`self.weight.shape[1]`). -/
def QuantizedSwitchLinear.output_dims (q : QuantizedSwitchLinear) : ℕ :=
  (q.weight.headD []).length

/-- Property `num_experts` of the quantized unit (`self.weight.shape[0]`). -/
def QuantizedSwitchLinear.num_experts (q : QuantizedSwitchLinear) : ℕ :=
  q.weight.length

/-- Weight tensor of shape `[E, H, D]` filled from a generator.  The source
fills it with `mx.random.uniform` samples; parameter randomization is out of
scope (spec §1), so the sampled values are abstracted into the generator. -/
def genWeight (E H D : ℕ) (w : ℕ → ℕ → ℕ → ℚ) : Tensor3 :=
  (List.range E).map fun e => (List.range H).map fun h => (List.range D).map fun d => w e h d

/-- Model of `mx.zeros((num_experts, output_dims))`. -/
def zerosM (E H : ℕ) : Mat := List.replicate E (List.replicate H 0)

/-- Model of `SwitchLinear.__init__(input_dims, output_dims, num_experts,
bias=True)`: the weight gets shape `(num_experts, output_dims, input_dims)`
and a zero bias of shape `(num_experts, output_dims)` is stored iff `bias`
is set; `bias` defaults to `true` as in the source. -/
def SwitchLinear.init (input_dims output_dims num_experts : ℕ)
    (w : ℕ → ℕ → ℕ → ℚ) (bias : Bool := true) : SwitchLinear :=
  { weight := genWeight num_experts output_dims input_dims w
    bias := if bias then some (zerosM num_experts output_dims) else none }

/-- Model of `QuantizedSwitchLinear.__init__(input_dims, output_dims,
num_experts, bias=True, group_size=64, bits=4)`: the randomly initialized
weight (abstracted into the generator) is quantized, and a zero bias is
stored iff `bias` is set.  The source's `self.freeze()` is the framework's
trainability marking, out of scope (spec §9). -/
def QuantizedSwitchLinear.init (input_dims output_dims num_experts : ℕ)
    (w : ℕ → ℕ → ℕ → ℚ) (bias : Bool := true) (group_size : ℕ := 64)
    (bits : ℕ := 4) : QuantizedSwitchLinear :=
  let q := quantize (genWeight num_experts output_dims input_dims w) group_size bits
  { weight := q.1
    scales := q.2.1
    biases := q.2.2
    bias := if bias then some (zerosM num_experts output_dims) else none
    group_size := group_size
    bits := bits }

/-- Model of `SwitchLinear.to_quantized(group_size=64, bits=4)`: the source
constructs a fresh `QuantizedSwitchLinear` (with `bias=False`) and then
overwrites its `weight`/`scales`/`biases` with `mx.quantize(self.weight)`
and sets its `bias` to `self.bias` when one is stored; the overwritten
random initialization is elided.  The source unit is only read. -/
def SwitchLinear.to_quantized (sl : SwitchLinear) (group_size : ℕ := 64)
    (bits : ℕ := 4) : QuantizedSwitchLinear :=
  let q := quantize sl.weight group_size bits
  { weight := q.1
    scales := q.2.1
    biases := q.2.2
    bias := sl.bias
    group_size := group_size
    bits := bits }

/-- Model of `mx.stop_gradient`: the identity at value level (automatic
differentiation is out of scope, spec §1). -/
def stop_gradient {α : Type} (x : α) : α := x

/-- Model of `indices.size`: the total number of (token, slot) pairs. -/
def arraySize (indices : List (List ℕ)) : ℕ := indices.flatten.length

/-- Elementwise product on a flat list of logical units. -/
def mulF (a b : List Mat) : List Mat := List.zipWith unitMul a b

/-- Elementwise activation on a flat list of logical units. -/
def actF (f : ℚ → ℚ) (a : List Mat) : List Mat := a.map (unitMap f)

/-- Elementwise product on nested `[NT, K]` units. -/
def mulN (a b : List (List Mat)) : List (List Mat) := List.zipWith mulF a b

/-- Elementwise activation on nested `[NT, K]` units. -/
def actN (f : ℚ → ℚ) (a : List (List Mat)) : List (List Mat) := a.map (actF f)

/-- Model of `x.squeeze(-2)` on a `[NT, K, 1, H]` result: drop the
singleton row axis of every logical unit. -/
def squeezeN (y : List (List Mat)) : List Mat :=
  y.map fun row => row.map fun u => u.headD []

/-- Gated expert block: three indexed linear units, an injected activation,
and the framework's training flag (read by `__call__` to decide whether to
detach the index tensor). -/
structure SwitchGLU where
  gate_proj : SwitchLinear
  up_proj : SwitchLinear
  down_proj : SwitchLinear
  activation : ℚ → ℚ
  training : Bool

/-- Sorted branch of `SwitchGLU.__call__` (`do_sort = True`): expand, sort,
run the three projections with the gating multiply, unsort, reshape to
`indices.shape` and squeeze the singleton axis. -/
def SwitchGLU.sortPath (m : SwitchGLU) (x : List Vec) (indices : List (List ℕ)) :
    List Mat :=
  let xe := x.map fun v => [v]
  let s := _gather_sort xe indices
  let idx := if m.training then stop_gradient s.2.1 else s.2.1
  let x_up := m.up_proj.call s.1 idx true
  let x_gate := m.gate_proj.call s.1 idx true
  let y := m.down_proj.call (mulF (actF m.activation x_gate) x_up) idx true
  squeezeN (_scatter_unsort y s.2.2 indices.length (indices.headD []).length)

/-- Unsorted branch of `SwitchGLU.__call__` (`do_sort = False`): the
expanded activations broadcast directly against `indices` and the result is
squeezed. -/
def SwitchGLU.directPath (m : SwitchGLU) (x : List Vec) (indices : List (List ℕ)) :
    List Mat :=
  let xe := x.map fun v => [v]
  let xb := broadcastK xe indices
  let idx := if m.training then stop_gradient indices else indices
  let x_up := m.up_proj.callN xb idx false
  let x_gate := m.gate_proj.callN xb idx false
  squeezeN (m.down_proj.callN (mulN (actN m.activation x_gate) x_up) idx false)

/-- Model of `SwitchGLU.__call__(x, indices)`: sort iff
`indices.size >= 64`. -/
def SwitchGLU.call (m : SwitchGLU) (x : List Vec) (indices : List (List ℕ)) :
    List Mat :=
  if 64 ≤ arraySize indices then m.sortPath x indices else m.directPath x indices

/-- Per-(token, slot) semantics of the gated expert block:
`down_proj(activation(gate_proj(x, i)) * up_proj(x, i))`. -/
def SwitchGLU.unit (m : SwitchGLU) (rows : Mat) (i : ℕ) : Mat :=
  m.down_proj.unit (unitMul (unitMap m.activation (m.gate_proj.unit rows i)) (m.up_proj.unit rows i)) i

/-- Model of `SwitchGLU.__init__(input_dims, hidden_dims, num_experts,
activation, bias=False)`: three plain units, each constructed with the
block's own `bias` argument, which defaults to `False`.  The generators
stand for the units' random initializations; the source default activation
(`nn.SiLU()`) is an external activation, out of scope. -/
def SwitchGLU.init (input_dims hidden_dims num_experts : ℕ)
    (activation : ℚ → ℚ) (wg wu wd : ℕ → ℕ → ℕ → ℚ) (bias : Bool := false) :
    SwitchGLU :=
  { gate_proj := SwitchLinear.init input_dims hidden_dims num_experts wg bias
    up_proj := SwitchLinear.init input_dims hidden_dims num_experts wu bias
    down_proj := SwitchLinear.init hidden_dims input_dims num_experts wd bias
    activation := activation
    training := false }

/-- Plain two-layer expert block: two indexed linear units with one
activation between them. -/
structure SwitchMLP where
  fc1 : SwitchLinear
  fc2 : SwitchLinear
  activation : ℚ → ℚ
  training : Bool

/-- Sorted branch of `SwitchMLP.__call__` (`do_sort = True`). -/
def SwitchMLP.sortPath (m : SwitchMLP) (x : List Vec) (indices : List (List ℕ)) :
    List Mat :=
  let xe := x.map fun v => [v]
  let s := _gather_sort xe indices
  let idx := if m.training then stop_gradient s.2.1 else s.2.1
  let y := m.fc2.call (actF m.activation (m.fc1.call s.1 idx true)) idx true
  squeezeN (_scatter_unsort y s.2.2 indices.length (indices.headD []).length)

/-- Unsorted branch of `SwitchMLP.__call__` (`do_sort = False`). -/
def SwitchMLP.directPath (m : SwitchMLP) (x : List Vec) (indices : List (List ℕ)) :
    List Mat :=
  let xe := x.map fun v => [v]
  let xb := broadcastK xe indices
  let idx := if m.training then stop_gradient indices else indices
  squeezeN (m.fc2.callN (actN m.activation (m.fc1.callN xb idx false)) idx false)

/-- Model of `SwitchMLP.__call__(x, indices)`: sort iff
`indices.size >= 64`. -/
def SwitchMLP.call (m : SwitchMLP) (x : List Vec) (indices : List (List ℕ)) :
    List Mat :=
  if 64 ≤ arraySize indices then m.sortPath x indices else m.directPath x indices

/-- Per-(token, slot) semantics of the plain expert block:
`fc2(activation(fc1(x, i)), i)`. -/
def SwitchMLP.unit (m : SwitchMLP) (rows : Mat) (i : ℕ) : Mat :=
  m.fc2.unit (unitMap m.activation (m.fc1.unit rows i)) i

/-- Model of `SwitchMLP.__init__(input_dims, hidden_dims, num_experts,
activation, bias=False)`: two plain units, each constructed with the block's
own `bias` argument, which defaults to `False`.  The source default
activation (`nn.GELU(approx="precise")`) is an external activation, out of
scope. -/
def SwitchMLP.init (input_dims hidden_dims num_experts : ℕ)
    (activation : ℚ → ℚ) (w1 w2 : ℕ → ℕ → ℕ → ℚ) (bias : Bool := false) :
    SwitchMLP :=
  { fc1 := SwitchLinear.init input_dims hidden_dims num_experts w1 bias
    fc2 := SwitchLinear.init hidden_dims input_dims num_experts w2 bias
    activation := activation
    training := false }

/-- Explicit state-passing form of `SwitchLinear.__call__`: the method body
contains no assignment to `self`, so the post-state is the pre-state. -/
def SwitchLinear.step (sl : SwitchLinear) (x : List Mat) (indices : List ℕ)
    (sorted_indices : Bool) : List Mat × SwitchLinear :=
  (sl.call x indices sorted_indices, sl)

/-- Explicit state-passing form of `QuantizedSwitchLinear.__call__`. -/
def QuantizedSwitchLinear.step (q : QuantizedSwitchLinear) (x : List Mat)
    (indices : List ℕ) (sorted_indices : Bool) :
    List Mat × QuantizedSwitchLinear :=
  (q.call x indices sorted_indices, q)

/-- Explicit state-passing form of `SwitchGLU.__call__`. -/
def SwitchGLU.step (m : SwitchGLU) (x : List Vec) (indices : List (List ℕ)) :
    List Mat × SwitchGLU :=
  (m.call x indices, m)

/-- Explicit state-passing form of `SwitchMLP.__call__`. -/
def SwitchMLP.step (m : SwitchMLP) (x : List Vec) (indices : List (List ℕ)) :
    List Mat × SwitchMLP :=
  (m.call x indices, m)

/-- Explicit state-passing form of `SwitchLinear.to_quantized`: the source
method reads `self.weight` and `self.bias` and writes only the fresh unit. -/
def SwitchLinear.to_quantized_step (sl : SwitchLinear) (group_size bits : ℕ) :
    QuantizedSwitchLinear × SwitchLinear :=
  (sl.to_quantized group_size bits, sl)

/-! Concrete example data (3 experts, 2 input dims, 2 hidden dims) used to
instantiate the theorems below on executable inputs. -/

def exGate : SwitchLinear :=
  { weight := [[[1, 0], [0, 1]], [[2, 1], [1, 0]], [[0, 2], [1, 1]]], bias := none }

def exUp : SwitchLinear :=
  { weight := [[[1, 1], [0, 2]], [[1, 0], [2, 1]], [[2, 0], [0, 1]]], bias := none }

def exDown : SwitchLinear :=
  { weight := [[[1, 0], [1, 1]], [[0, 1], [2, 0]], [[1, 2], [0, 1]]], bias := none }

def exBiasLin : SwitchLinear :=
  { weight := [[[1, 2], [3, 4]], [[0, 1], [1, 0]]], bias := some [[1, 2], [3, 4]] }

def exGLU : SwitchGLU :=
  { gate_proj := exGate, up_proj := exUp, down_proj := exDown,
    activation := fun q => q * q, training := false }

def exMLP : SwitchMLP :=
  { fc1 := exGate, fc2 := exDown, activation := fun q => q + 1, training := false }

def exX : List Vec := (List.range 32).map fun t => [(t : ℚ), 1]

def exIdx : List (List ℕ) := (List.range 32).map fun t => [t % 3, (t + 1) % 3]

def exX4 : List Mat := [[[1, 2]], [[3, 4]]]

def exIdx4 : List (List ℕ) := [[1, 0], [1, 2]]

/-! Helper lemmas: positional access, fusion of elementwise pipelines. -/

theorem headD_eq_getD {α : Type} (l : List α) (d : α) : l.headD d = l.getD 0 d := by
  cases l <;> rfl

theorem getD_map_of_lt {α β : Type} (f : α → β) (l : List α) (i : ℕ) (d : β) (d' : α)
    (h : i < l.length) : (l.map f).getD i d = f (l.getD i d') := by
  rw [List.getD_eq_getElem _ _ (by simpa using h), List.getD_eq_getElem _ _ h,
    List.getElem_map]

theorem getD_zipWith_of_lt {α β γ : Type} (f : α → β → γ) (l : List α) (l' : List β)
    (i : ℕ) (d : γ) (da : α) (db : β) (h : i < l.length) (h' : i < l'.length) :
    (List.zipWith f l l').getD i d = f (l.getD i da) (l'.getD i db) := by
  rw [List.getD_eq_getElem _ _ (by simp [List.length_zipWith]; omega),
    List.getD_eq_getElem _ _ h, List.getD_eq_getElem _ _ h', List.getElem_zipWith]

theorem getD_range_of_lt (n i : ℕ) (d : ℕ) (h : i < n) :
    (List.range n).getD i d = i := by
  rw [List.getD_eq_getElem _ _ (by simpa using h), List.getElem_range]

theorem zipWith_self {α β : Type} (f : α → α → β) (l : List α) :
    List.zipWith f l l = l.map fun a => f a a := by
  induction l with
  | nil => rfl
  | cons a t ih => simp [ih]

theorem zipWith_zipWith_same {α β γ δ : Type} (f : γ → β → δ) (g : α → β → γ)
    (x : List α) (y : List β) :
    List.zipWith f (List.zipWith g x y) y = List.zipWith (fun a b => f (g a b) b) x y := by
  induction x generalizing y with
  | nil => rfl
  | cons a t ih => cases y with
    | nil => rfl
    | cons b s => simp [ih]

theorem zipWith_zipWith_both {α β γ δ ε : Type} (f : γ → δ → ε) (g : α → β → γ)
    (h : α → β → δ) (x : List α) (y : List β) :
    List.zipWith f (List.zipWith g x y) (List.zipWith h x y)
      = List.zipWith (fun a b => f (g a b) (h a b)) x y := by
  induction x generalizing y with
  | nil => rfl
  | cons a t ih => cases y with
    | nil => rfl
    | cons b s => simp [ih]

theorem map_getD_range {α : Type} (l : List α) (d : α) :
    (List.range l.length).map (fun i => l.getD i d) = l := by
  apply List.ext_get (by simp)
  intro n h1 h2
  simp only [List.get_eq_getElem, List.getElem_map, List.getElem_range]
  rw [List.getD_eq_getElem _ _ (by simpa using h1)]

/-! Helper lemmas about the stable argsort. -/

theorem argsort_perm (l : List ℕ) : (argsort l).Perm (List.range l.length) :=
  List.perm_insertionSort _ _

theorem argsort_length (l : List ℕ) : (argsort l).length = l.length := by
  simpa using (argsort_perm l).length_eq

theorem mem_argsort_lt {l : List ℕ} {i : ℕ} (h : i ∈ argsort l) : i < l.length := by
  have := ((argsort_perm l).mem_iff).mp h
  simpa using this

theorem argsort_nodup (l : List ℕ) : (argsort l).Nodup :=
  ((argsort_perm l).symm).nodup (List.nodup_range _)

theorem argsort_sortedKey (l : List ℕ) : List.Sorted (keyLe l) (argsort l) :=
  List.sorted_insertionSort _ _

theorem sortKey_value_le {l : List ℕ} {i j : ℕ} (hi : i < l.length) (hj : j < l.length)
    (h : keyLe l i j) : l.getD i 0 ≤ l.getD j 0 := by
  by_contra hlt
  push_neg at hlt
  unfold keyLe sortKey at h
  have hmul : (l.getD j 0 + 1) * l.length ≤ l.getD i 0 * l.length :=
    Nat.mul_le_mul_right _ hlt
  have := Nat.add_mul (l.getD j 0) 1 l.length
  omega

theorem sortKey_same_value_le {l : List ℕ} {i j : ℕ}
    (hv : l.getD i 0 = l.getD j 0) (h : keyLe l i j) : i ≤ j := by
  unfold keyLe sortKey at h
  rw [hv] at h
  omega

theorem argsort_map_sorted (l : List ℕ) :
    List.Sorted (· ≤ ·) ((argsort l).map fun i => l.getD i 0) := by
  rw [List.Sorted, List.pairwise_iff_get]
  intro i j hij
  simp only [List.get_eq_getElem, List.getElem_map]
  have hkey : keyLe l (argsort l)[(i : ℕ)] (argsort l)[(j : ℕ)] := by
    have := (List.pairwise_iff_get.mp (argsort_sortedKey l))
    have h2 := this ⟨i, by simpa using i.isLt⟩ ⟨j, by simpa using j.isLt⟩ (by simpa using hij)
    simpa using h2
  exact sortKey_value_le
    (mem_argsort_lt (List.getElem_mem _))
    (mem_argsort_lt (List.getElem_mem _)) hkey

theorem argsort_map_getD_of_perm {p : List ℕ} {N : ℕ} (hp : p.Perm (List.range N)) :
    (argsort p).map (fun i => p.getD i 0) = List.range N := by
  have hlen : p.length = N := by simpa using hp.length_eq
  have hperm : ((argsort p).map (fun i => p.getD i 0)).Perm (List.range N) := by
    have h1 : ((argsort p).map (fun i => p.getD i 0)).Perm
        ((List.range p.length).map (fun i => p.getD i 0)) :=
      List.Perm.map _ (argsort_perm p)
    rw [map_getD_range] at h1
    exact h1.trans hp
  exact List.eq_of_perm_of_sorted hperm (argsort_map_sorted p) (List.sorted_le_range N)

theorem nodup_getD_inj {α : Type} [Inhabited α] {l : List α} (h : l.Nodup) {a b : ℕ}
    (ha : a < l.length) (hb : b < l.length)
    (he : l.getD a default = l.getD b default) : a = b := by
  rw [List.getD_eq_getElem _ _ ha, List.getD_eq_getElem _ _ hb] at he
  exact (h.getElem_inj_iff).mp he

theorem argsort_inverse_right {p : List ℕ} {N : ℕ} (hp : p.Perm (List.range N))
    {j : ℕ} (hj : j < N) : p.getD ((argsort p).getD j 0) 0 = j := by
  have hlen : p.length = N := by simpa using hp.length_eq
  have hq : j < (argsort p).length := by rw [argsort_length, hlen]; exact hj
  have h1 : ((argsort p).map (fun i => p.getD i 0)).getD j 0 = (List.range N).getD j 0 := by
    rw [argsort_map_getD_of_perm hp]
  rw [getD_map_of_lt (fun i => p.getD i 0) (argsort p) j 0 0 hq,
    getD_range_of_lt N j 0 hj] at h1
  exact h1

theorem argsort_inverse_left {p : List ℕ} {N : ℕ} (hp : p.Perm (List.range N))
    {i : ℕ} (hi : i < N) : (argsort p).getD (p.getD i 0) 0 = i := by
  have hlen : p.length = N := by simpa using hp.length_eq
  have hnd : p.Nodup := (hp.symm).nodup (List.nodup_range _)
  have hip : i < p.length := by omega
  have hv : p.getD i 0 < N := by
    have hmem : p.getD i 0 ∈ p := by
      rw [List.getD_eq_getElem _ _ hip]
      exact List.getElem_mem _
    have := (hp.mem_iff).mp hmem
    simpa using this
  have hqv : (argsort p).getD (p.getD i 0) 0 < p.length := by
    apply mem_argsort_lt
    rw [List.getD_eq_getElem _ _ (by rw [argsort_length, hlen]; exact hv)]
    exact List.getElem_mem _
  have hround : p.getD ((argsort p).getD (p.getD i 0) 0) 0 = p.getD i 0 :=
    argsort_inverse_right hp hv
  exact nodup_getD_inj hnd hqv hip hround

theorem argsort_stable {l : List ℕ} {a b : ℕ} (hab : a < b)
    (hb : b < (argsort l).length)
    (hv : l.getD ((argsort l).getD a 0) 0 = l.getD ((argsort l).getD b 0) 0) :
    (argsort l).getD a 0 < (argsort l).getD b 0 := by
  have ha : a < (argsort l).length := lt_trans hab hb
  rw [List.getD_eq_getElem _ _ ha, List.getD_eq_getElem _ _ hb] at hv ⊢
  have hkey : keyLe l (argsort l)[a] (argsort l)[b] := by
    have := (List.pairwise_iff_get.mp (argsort_sortedKey l)) ⟨a, ha⟩ ⟨b, hb⟩ hab
    simpa using this
  have hle : (argsort l)[a] ≤ (argsort l)[b] := sortKey_same_value_le hv hkey
  have hne : (argsort l)[a] ≠ (argsort l)[b] := by
    intro he
    exact absurd (((argsort_nodup l).getElem_inj_iff).mp he) (by omega)
  omega

/-! Helper lemmas about flattening uniform nested lists. -/

theorem flatten_length_uniform {α : Type} {L : List (List α)} {K : ℕ}
    (hU : ∀ r ∈ L, r.length = K) : L.flatten.length = L.length * K := by
  induction L with
  | nil => simp
  | cons r rest ih =>
    have hr : r.length = K := hU r (by simp)
    have hrest : ∀ s ∈ rest, s.length = K := fun s hs => hU s (by simp [hs])
    simp [ih hrest, hr, Nat.succ_mul, Nat.add_comm]

theorem flatten_getD_uniform {α : Type} {L : List (List α)} {K : ℕ}
    (hU : ∀ r ∈ L, r.length = K) {t k : ℕ} (ht : t < L.length) (hk : k < K) (d : α) :
    L.flatten.getD (t * K + k) d = (L.getD t []).getD k d := by
  induction L generalizing t with
  | nil => simp at ht
  | cons r rest ih =>
    have hr : r.length = K := hU r (by simp)
    have hrest : ∀ s ∈ rest, s.length = K := fun s hs => hU s (by simp [hs])
    cases t with
    | zero =>
      simp only [List.flatten_cons, Nat.zero_mul, Nat.zero_add]
      rw [List.getD_append _ _ _ _ (by omega)]
      rfl
    | succ t' =>
      simp only [List.flatten_cons]
      have hsm : (t' + 1) * K = t' * K + K := by ring
      rw [List.getD_append_right _ _ _ _ (by rw [hr]; omega)]
      have harith : (t' + 1) * K + k - r.length = t' * K + k := by
        rw [hr]; omega
      rw [harith]
      exact ih hrest (by simpa using ht)

/-! Pointwise characterization of the indexed linear unit calls. -/

theorem SwitchLinear.unit_none {sl : SwitchLinear} (hb : sl.bias = none) :
    sl.unit = fun rows i => rows.map fun r => matvecT (sl.weight.getD i []) r := by
  funext rows i
  simp [SwitchLinear.unit, hb]

theorem SwitchLinear.unit_some {sl : SwitchLinear} {b : Mat} (hb : sl.bias = some b) :
    sl.unit = fun rows i =>
      rows.map fun r => vadd (matvecT (sl.weight.getD i []) r) (b.getD i []) := by
  funext rows i
  simp [SwitchLinear.unit, hb]

theorem SwitchLinear.call_eq (sl : SwitchLinear) (x : List Mat) (indices : List ℕ)
    (s : Bool) : sl.call x indices s = List.zipWith sl.unit x indices := by
  cases hb : sl.bias with
  | none =>
    rw [SwitchLinear.unit_none hb]
    simp [SwitchLinear.call, gather_mm_t, hb]
  | some b =>
    rw [SwitchLinear.unit_some hb]
    simp only [SwitchLinear.call, gather_mm_t, add_bias, hb,
      zipWith_zipWith_same, List.map_map]
    rfl

theorem SwitchLinear.callN_eq (sl : SwitchLinear) (x : List (List Mat))
    (indices : List (List ℕ)) (s : Bool) :
    sl.callN x indices s
      = List.zipWith (fun us row => List.zipWith sl.unit us row) x indices := by
  cases hb : sl.bias with
  | none =>
    rw [SwitchLinear.unit_none hb]
    simp [SwitchLinear.callN, gather_mm_t_n, hb]
  | some b =>
    rw [SwitchLinear.unit_some hb]
    simp only [SwitchLinear.callN, gather_mm_t_n, add_bias_n, hb,
      zipWith_zipWith_same, List.map_map]
    rfl

/-! Collapse of the two branch pipelines to canonical per-unit maps. -/

theorem glu_directPath_collapse (m : SwitchGLU) (x : List Vec)
    (indices : List (List ℕ)) :
    m.directPath x indices
      = squeezeN (List.zipWith (fun v row => row.map fun i => m.unit [v] i) x indices) := by
  unfold SwitchGLU.directPath
  simp only [stop_gradient, ite_self]
  rw [SwitchLinear.callN_eq, SwitchLinear.callN_eq, SwitchLinear.callN_eq]
  simp only [SwitchGLU.unit, mulN, actN, mulF, actF, broadcastK, List.map_zipWith,
    zipWith_zipWith_both, zipWith_zipWith_same, List.zipWith_map_left,
    List.zipWith_map_right, List.zipWith_map, zipWith_self, List.map_map,
    Function.comp_def]

theorem mlp_directPath_collapse (m : SwitchMLP) (x : List Vec)
    (indices : List (List ℕ)) :
    m.directPath x indices
      = squeezeN (List.zipWith (fun v row => row.map fun i => m.unit [v] i) x indices) := by
  unfold SwitchMLP.directPath
  simp only [stop_gradient, ite_self]
  rw [SwitchLinear.callN_eq, SwitchLinear.callN_eq]
  simp only [SwitchMLP.unit, actN, actF, broadcastK, List.map_zipWith,
    zipWith_zipWith_both, zipWith_zipWith_same, List.zipWith_map_left,
    List.zipWith_map_right, List.zipWith_map, zipWith_self, List.map_map,
    Function.comp_def]

theorem glu_sortPath_collapse (m : SwitchGLU) (x : List Vec)
    (indices : List (List ℕ)) :
    m.sortPath x indices
      = squeezeN (unflatten2 indices.length (indices.headD []).length []
          ((argsort (argsort indices.flatten)).map fun j =>
            ((argsort indices.flatten).map fun o =>
              m.unit ((x.map fun v => [v]).getD (o / (indices.headD []).length) [])
                (indices.flatten.getD o 0)).getD j [])) := by
  unfold SwitchGLU.sortPath _gather_sort _scatter_unsort
  simp only [stop_gradient, ite_self]
  rw [SwitchLinear.call_eq, SwitchLinear.call_eq, SwitchLinear.call_eq]
  simp only [SwitchGLU.unit, mulF, actF, List.map_zipWith,
    zipWith_zipWith_both, zipWith_zipWith_same, List.zipWith_map_left,
    List.zipWith_map_right, List.zipWith_map, zipWith_self, List.map_map,
    Function.comp_def]

theorem mlp_sortPath_collapse (m : SwitchMLP) (x : List Vec)
    (indices : List (List ℕ)) :
    m.sortPath x indices
      = squeezeN (unflatten2 indices.length (indices.headD []).length []
          ((argsort (argsort indices.flatten)).map fun j =>
            ((argsort indices.flatten).map fun o =>
              m.unit ((x.map fun v => [v]).getD (o / (indices.headD []).length) [])
                (indices.flatten.getD o 0)).getD j [])) := by
  unfold SwitchMLP.sortPath _gather_sort _scatter_unsort
  simp only [stop_gradient, ite_self]
  rw [SwitchLinear.call_eq, SwitchLinear.call_eq]
  simp only [SwitchMLP.unit, actF, List.map_zipWith,
    zipWith_zipWith_both, zipWith_zipWith_same, List.zipWith_map_left,
    List.zipWith_map_right, List.zipWith_map, zipWith_self, List.map_map,
    Function.comp_def]

/-- Core reordering correctness: scattering the per-unit results computed in
sorted order back through the inverse permutation and reshaping yields
exactly the direct per-(token, slot) computation, for any per-unit function. -/
theorem sortScaffold (U : Mat → ℕ → Mat) (x : List Vec) (indices : List (List ℕ))
    (K : ℕ) (hU : ∀ r ∈ indices, r.length = K) (hx : x.length = indices.length)
    (hK : 0 < K) :
    unflatten2 indices.length K ([] : Mat)
      ((argsort (argsort indices.flatten)).map fun j =>
        ((argsort indices.flatten).map fun o =>
          U ((x.map fun v => [v]).getD (o / K) []) (indices.flatten.getD o 0)).getD j [])
    = List.zipWith (fun v row => row.map fun i => U [v] i) x indices := by
  have hN : indices.flatten.length = indices.length * K := flatten_length_uniform hU
  have hordlen : (argsort indices.flatten).length = indices.flatten.length :=
    argsort_length _
  have hqlen : (argsort (argsort indices.flatten)).length
      = (argsort indices.flatten).length := argsort_length _
  apply List.ext_get (by simp [unflatten2, List.length_zipWith, hx])
  intro t h1 h2
  have ht : t < indices.length := by simpa [unflatten2] using h1
  simp only [List.get_eq_getElem, unflatten2, List.getElem_map, List.getElem_range,
    List.getElem_zipWith]
  have hrowlen : indices[t].length = K := hU indices[t] (List.getElem_mem _)
  apply List.ext_get (by simp [hrowlen])
  intro k hk1 hk2
  have hkK : k < K := by simpa using hk1
  simp only [List.get_eq_getElem, List.getElem_map, List.getElem_range]
  have hn : t * K + k < indices.length * K := by
    have hh1 : (t + 1) * K = t * K + K := by ring
    have hh2 : (t + 1) * K ≤ indices.length * K := Nat.mul_le_mul_right K (by omega)
    omega
  have hnq : t * K + k < (argsort (argsort indices.flatten)).length := by
    rw [hqlen, hordlen, hN]; exact hn
  rw [getD_map_of_lt _ _ _ _ 0 hnq]
  have hj0 : (argsort (argsort indices.flatten)).getD (t * K + k) 0
      < (argsort indices.flatten).length := by
    apply mem_argsort_lt
    rw [List.getD_eq_getElem _ _ hnq]
    exact List.getElem_mem _
  rw [getD_map_of_lt _ _ _ _ 0 hj0]
  have hinv : (argsort indices.flatten).getD
      ((argsort (argsort indices.flatten)).getD (t * K + k) 0) 0 = t * K + k := by
    have hperm : (argsort indices.flatten).Perm (List.range indices.flatten.length) :=
      argsort_perm _
    exact argsort_inverse_right hperm (by rw [hN]; exact hn)
  rw [hinv]
  have hdiv : (t * K + k) / K = t := by
    rw [show t * K + k = K * t + k by ring, Nat.mul_add_div hK,
      Nat.div_eq_of_lt hkK, Nat.add_zero]
  rw [hdiv]
  have hxt : t < x.length := by rw [hx]; exact ht
  rw [getD_map_of_lt (fun v => [v]) x t [] [] hxt]
  have hflat : indices.flatten.getD (t * K + k) 0 = (indices.getD t []).getD k 0 :=
    flatten_getD_uniform hU ht hkK 0
  rw [hflat, List.getD_eq_getElem _ _ hxt, List.getD_eq_getElem indices _ ht,
    List.getD_eq_getElem _ _ (by rw [hrowlen]; exact hkK)]

theorem glu_sortPath_eq_directPath (m : SwitchGLU) (x : List Vec)
    (indices : List (List ℕ)) (K : ℕ) (hU : ∀ r ∈ indices, r.length = K)
    (hx : x.length = indices.length) (hK : 0 < K) :
    m.sortPath x indices = m.directPath x indices := by
  by_cases hemp : indices = []
  · subst hemp
    simp [glu_sortPath_collapse, glu_directPath_collapse, unflatten2, squeezeN]
  · have hM : (indices.headD []).length = K := by
      cases indices with
      | nil => exact absurd rfl hemp
      | cons r rest => exact hU r (by simp)
    rw [glu_sortPath_collapse, glu_directPath_collapse, hM]
    exact congrArg squeezeN (sortScaffold m.unit x indices K hU hx hK)

theorem mlp_sortPath_eq_directPath (m : SwitchMLP) (x : List Vec)
    (indices : List (List ℕ)) (K : ℕ) (hU : ∀ r ∈ indices, r.length = K)
    (hx : x.length = indices.length) (hK : 0 < K) :
    m.sortPath x indices = m.directPath x indices := by
  by_cases hemp : indices = []
  · subst hemp
    simp [mlp_sortPath_collapse, mlp_directPath_collapse, unflatten2, squeezeN]
  · have hM : (indices.headD []).length = K := by
      cases indices with
      | nil => exact absurd rfl hemp
      | cons r rest => exact hU r (by simp)
    rw [mlp_sortPath_collapse, mlp_directPath_collapse, hM]
    exact congrArg squeezeN (sortScaffold m.unit x indices K hU hx hK)

theorem uniform_size_pos {indices : List (List ℕ)} {K : ℕ}
    (hU : ∀ r ∈ indices, r.length = K) (h64 : 64 ≤ arraySize indices) : 0 < K := by
  by_contra h0
  push_neg at h0
  have hK0 : K = 0 := by omega
  have hflatlen : indices.flatten.length = indices.length * K := flatten_length_uniform hU
  unfold arraySize at h64
  rw [hK0, Nat.mul_zero] at hflatlen
  omega

theorem glu_call_eq_direct (m : SwitchGLU) (x : List Vec)
    (indices : List (List ℕ)) (K : ℕ) (hU : ∀ r ∈ indices, r.length = K)
    (hx : x.length = indices.length) :
    m.call x indices = m.directPath x indices := by
  by_cases h64 : 64 ≤ arraySize indices
  · unfold SwitchGLU.call
    rw [if_pos h64]
    exact glu_sortPath_eq_directPath m x indices K hU hx (uniform_size_pos hU h64)
  · unfold SwitchGLU.call
    rw [if_neg h64]

theorem mlp_call_eq_direct (m : SwitchMLP) (x : List Vec)
    (indices : List (List ℕ)) (K : ℕ) (hU : ∀ r ∈ indices, r.length = K)
    (hx : x.length = indices.length) :
    m.call x indices = m.directPath x indices := by
  by_cases h64 : 64 ≤ arraySize indices
  · unfold SwitchMLP.call
    rw [if_pos h64]
    exact mlp_sortPath_eq_directPath m x indices K hU hx (uniform_size_pos hU h64)
  · unfold SwitchMLP.call
    rw [if_neg h64]

/-! Pointwise evaluation of the block calls. -/

theorem matvecT_length (w : Mat) (v : Vec) : (matvecT w v).length = w.length := by
  simp [matvecT]

theorem glu_call_length (m : SwitchGLU) (x : List Vec) (indices : List (List ℕ))
    (K : ℕ) (hU : ∀ r ∈ indices, r.length = K) (hx : x.length = indices.length) :
    (m.call x indices).length = indices.length := by
  rw [glu_call_eq_direct m x indices K hU hx, glu_directPath_collapse]
  simp [squeezeN, List.length_zipWith, hx]

theorem glu_call_row_length (m : SwitchGLU) (x : List Vec)
    (indices : List (List ℕ)) (K : ℕ) (hU : ∀ r ∈ indices, r.length = K)
    (hx : x.length = indices.length) {t : ℕ} (ht : t < indices.length) :
    ((m.call x indices).getD t []).length = K := by
  rw [glu_call_eq_direct m x indices K hU hx, glu_directPath_collapse]
  unfold squeezeN
  rw [getD_map_of_lt _ _ t [] [] (by simp [List.length_zipWith]; omega)]
  rw [getD_zipWith_of_lt _ x indices t [] [] [] (by omega) ht]
  simp only [List.map_map, List.length_map]
  rw [List.getD_eq_getElem indices _ ht]
  exact hU _ (List.getElem_mem _)

theorem glu_call_getD (m : SwitchGLU) (x : List Vec) (indices : List (List ℕ))
    (K : ℕ) (hU : ∀ r ∈ indices, r.length = K) (hx : x.length = indices.length)
    {t k : ℕ} (ht : t < indices.length) (hk : k < K) :
    ((m.call x indices).getD t []).getD k []
      = (m.unit [x.getD t []] ((indices.getD t []).getD k 0)).headD [] := by
  rw [glu_call_eq_direct m x indices K hU hx, glu_directPath_collapse]
  unfold squeezeN
  rw [getD_map_of_lt _ _ t [] [] (by simp [List.length_zipWith]; omega)]
  rw [getD_zipWith_of_lt _ x indices t [] [] [] (by omega) ht]
  simp only [List.map_map]
  have hrow : (indices.getD t []).length = K := by
    rw [List.getD_eq_getElem indices _ ht]
    exact hU _ (List.getElem_mem _)
  rw [getD_map_of_lt _ _ k [] 0 (by omega)]
  rfl

theorem mlp_call_length (m : SwitchMLP) (x : List Vec) (indices : List (List ℕ))
    (K : ℕ) (hU : ∀ r ∈ indices, r.length = K) (hx : x.length = indices.length) :
    (m.call x indices).length = indices.length := by
  rw [mlp_call_eq_direct m x indices K hU hx, mlp_directPath_collapse]
  simp [squeezeN, List.length_zipWith, hx]

theorem mlp_call_row_length (m : SwitchMLP) (x : List Vec)
    (indices : List (List ℕ)) (K : ℕ) (hU : ∀ r ∈ indices, r.length = K)
    (hx : x.length = indices.length) {t : ℕ} (ht : t < indices.length) :
    ((m.call x indices).getD t []).length = K := by
  rw [mlp_call_eq_direct m x indices K hU hx, mlp_directPath_collapse]
  unfold squeezeN
  rw [getD_map_of_lt _ _ t [] [] (by simp [List.length_zipWith]; omega)]
  rw [getD_zipWith_of_lt _ x indices t [] [] [] (by omega) ht]
  simp only [List.map_map, List.length_map]
  rw [List.getD_eq_getElem indices _ ht]
  exact hU _ (List.getElem_mem _)

theorem mlp_call_getD (m : SwitchMLP) (x : List Vec) (indices : List (List ℕ))
    (K : ℕ) (hU : ∀ r ∈ indices, r.length = K) (hx : x.length = indices.length)
    {t k : ℕ} (ht : t < indices.length) (hk : k < K) :
    ((m.call x indices).getD t []).getD k []
      = (m.unit [x.getD t []] ((indices.getD t []).getD k 0)).headD [] := by
  rw [mlp_call_eq_direct m x indices K hU hx, mlp_directPath_collapse]
  unfold squeezeN
  rw [getD_map_of_lt _ _ t [] [] (by simp [List.length_zipWith]; omega)]
  rw [getD_zipWith_of_lt _ x indices t [] [] [] (by omega) ht]
  simp only [List.map_map]
  have hrow : (indices.getD t []).length = K := by
    rw [List.getD_eq_getElem indices _ ht]
    exact hU _ (List.getElem_mem _)
  rw [getD_map_of_lt _ _ k [] 0 (by omega)]
  rfl

theorem glu_unit_singleton (m : SwitchGLU) (hbg : m.gate_proj.bias = none)
    (hbu : m.up_proj.bias = none) (hbd : m.down_proj.bias = none) (v : Vec) (i : ℕ) :
    m.unit [v] i
      = [matvecT (m.down_proj.weight.getD i [])
          (List.zipWith (· * ·)
            ((matvecT (m.gate_proj.weight.getD i []) v).map m.activation)
            (matvecT (m.up_proj.weight.getD i []) v))] := by
  simp [SwitchGLU.unit, SwitchLinear.unit_none hbg, SwitchLinear.unit_none hbu,
    SwitchLinear.unit_none hbd, unitMul, unitMap]

theorem mlp_unit_singleton (m : SwitchMLP) (hb1 : m.fc1.bias = none)
    (hb2 : m.fc2.bias = none) (v : Vec) (i : ℕ) :
    m.unit [v] i
      = [matvecT (m.fc2.weight.getD i [])
          ((matvecT (m.fc1.weight.getD i []) v).map m.activation)] := by
  simp [SwitchMLP.unit, SwitchLinear.unit_none hb1, SwitchLinear.unit_none hb2, unitMap]

/-! Shape helpers for quantization and introspection. -/

theorem headD_map_of_pos {α β : Type} (f : α → β) (l : List α) (d : β) (d' : α)
    (h : 0 < l.length) : (l.map f).headD d = f (l.getD 0 d') := by
  rw [headD_eq_getD]
  exact getD_map_of_lt f l 0 d d' h

theorem groupChunks_length (g : ℕ) (r : Vec) :
    (groupChunks g r).length = r.length / g := by
  simp [groupChunks]

theorem genWeight_length (E H D : ℕ) (w : ℕ → ℕ → ℕ → ℚ) :
    (genWeight E H D w).length = E := by
  simp [genWeight]

theorem genWeight_headD (E H D : ℕ) (w : ℕ → ℕ → ℕ → ℚ) (hE : 0 < E) :
    (genWeight E H D w).headD []
      = (List.range H).map fun h => (List.range D).map fun d => w 0 h d := by
  unfold genWeight
  rw [headD_map_of_pos _ _ [] 0 (by simpa using hE), getD_range_of_lt E 0 0 hE]

theorem genWeight_getD0 (E H D : ℕ) (w : ℕ → ℕ → ℕ → ℚ) (hE : 0 < E) :
    (genWeight E H D w).getD 0 []
      = (List.range H).map fun h => (List.range D).map fun d => w 0 h d := by
  rw [show (genWeight E H D w).getD 0 [] = (genWeight E H D w).headD []
    from (headD_eq_getD _ _).symm]
  exact genWeight_headD E H D w hE

theorem matHeadD_len {α : Type} (L : List (List α)) (K : ℕ)
    (hU : ∀ r ∈ L, r.length = K) (hL : 0 < L.length) : (L.headD []).length = K := by
  rw [headD_eq_getD, List.getD_eq_getElem _ _ hL]
  exact hU _ (List.getElem_mem _)

/-! Claim theorems. -/

/-- C1: the expert blocks `SwitchGLU` and `SwitchMLP` take the sort/unsort
path exactly when `indices.size >= 64` (so 63 takes the no-sort path and 64
the sort path), and on every well-shaped input (uniform slot count `K > 0`,
one index row per token) the two paths produce identical outputs: the sorted
computation followed by the inverse scatter equals the direct unsorted
computation. -/
theorem sort_threshold_and_path_equivalence (m : SwitchGLU) (p : SwitchMLP)
    (x : List Vec) (indices : List (List ℕ)) (K : ℕ)
    (hU : ∀ r ∈ indices, r.length = K) (hx : x.length = indices.length)
    (hK : 0 < K) :
    (m.call x indices
        = if 64 ≤ arraySize indices then m.sortPath x indices
          else m.directPath x indices)
    ∧ (p.call x indices
        = if 64 ≤ arraySize indices then p.sortPath x indices
          else p.directPath x indices)
    ∧ m.sortPath x indices = m.directPath x indices
    ∧ p.sortPath x indices = p.directPath x indices :=
  ⟨rfl, rfl, glu_sortPath_eq_directPath m x indices K hU hx hK,
   mlp_sortPath_eq_directPath p x indices K hU hx hK⟩

theorem sort_threshold_and_path_equivalence_witness :
    ((∀ r ∈ exIdx, r.length = 2) ∧ exX.length = exIdx.length ∧ 0 < 2)
    ∧ exGLU.sortPath exX exIdx = exGLU.directPath exX exIdx
    ∧ exMLP.sortPath exX exIdx = exMLP.directPath exX exIdx :=
  ⟨⟨by decide, by decide, by decide⟩,
   (sort_threshold_and_path_equivalence exGLU exMLP exX exIdx 2 (by decide)
      (by decide) (by decide)).2.2.1,
   (sort_threshold_and_path_equivalence exGLU exMLP exX exIdx 2 (by decide)
      (by decide) (by decide)).2.2.2⟩

/-- C3: the two permutations produced by the sort step of `_gather_sort` —
`order = argsort(indices.flatten())` and `inv_order = argsort(order)` —
satisfy `inv_order[order[i]] = i` for every `i` below the flattened length. -/
theorem gather_sort_permutation_inverse_law (x : List Mat)
    (indices : List (List ℕ)) (i : ℕ) (hi : i < indices.flatten.length) :
    ((_gather_sort x indices).2.2).getD ((argsort indices.flatten).getD i 0) 0 = i := by
  have h : (_gather_sort x indices).2.2 = argsort (argsort indices.flatten) := rfl
  rw [h]
  exact argsort_inverse_left (argsort_perm _) hi

theorem gather_sort_permutation_inverse_law_witness :
    3 < exIdx4.flatten.length
    ∧ ((_gather_sort exX4 exIdx4).2.2).getD ((argsort exIdx4.flatten).getD 3 0) 0 = 3 :=
  ⟨by decide, gather_sort_permutation_inverse_law exX4 exIdx4 3 (by decide)⟩

/-- C4: postcondition of `_gather_sort`: the reordered index list is
`indices.flatten()[order]` and is non-decreasing; `order` is a permutation
of `[0, N)` chosen by a stable sort (tied expert values keep their original
relative order, i.e. the original positions appear in increasing order);
the reordered activations align one-to-one with the reordered indices, with
position `i` holding the token row `x_flat[order[i] / K]` for `K` the last
dimension of `indices`. -/
theorem gather_sort_postcondition (x : List Mat) (indices : List (List ℕ)) :
    List.Sorted (· ≤ ·) (_gather_sort x indices).2.1
    ∧ (argsort indices.flatten).Perm (List.range indices.flatten.length)
    ∧ (_gather_sort x indices).2.1
        = ((argsort indices.flatten).map fun o => indices.flatten.getD o 0)
    ∧ (_gather_sort x indices).1.length = (_gather_sort x indices).2.1.length
    ∧ (∀ a b, a < b → b < indices.flatten.length →
        indices.flatten.getD ((argsort indices.flatten).getD a 0) 0
            = indices.flatten.getD ((argsort indices.flatten).getD b 0) 0 →
        (argsort indices.flatten).getD a 0 < (argsort indices.flatten).getD b 0)
    ∧ (∀ i, i < indices.flatten.length →
        (_gather_sort x indices).1.getD i []
          = x.getD ((argsort indices.flatten).getD i 0 / (indices.headD []).length) []) := by
  refine ⟨?_, argsort_perm _, rfl, by simp [_gather_sort], ?_, ?_⟩
  · have h : (_gather_sort x indices).2.1
        = (argsort indices.flatten).map fun o => indices.flatten.getD o 0 := rfl
    rw [h]
    exact argsort_map_sorted _
  · intro a b hab hb htie
    exact argsort_stable hab (by rw [argsort_length]; exact hb) htie
  · intro i hi
    have h : (_gather_sort x indices).1
        = (argsort indices.flatten).map
            fun o => x.getD (o / (indices.headD []).length) [] := rfl
    rw [h]
    exact getD_map_of_lt _ _ _ _ 0 (by rw [argsort_length]; exact hi)

theorem gather_sort_postcondition_witness :
    List.Sorted (· ≤ ·) (_gather_sort exX4 exIdx4).2.1
    ∧ (argsort exIdx4.flatten).Perm (List.range exIdx4.flatten.length)
    ∧ (1 < 2 ∧ 2 < exIdx4.flatten.length
        ∧ exIdx4.flatten.getD ((argsort exIdx4.flatten).getD 1 0) 0
            = exIdx4.flatten.getD ((argsort exIdx4.flatten).getD 2 0) 0)
    ∧ (argsort exIdx4.flatten).getD 1 0 < (argsort exIdx4.flatten).getD 2 0
    ∧ 2 < exIdx4.flatten.length
    ∧ (_gather_sort exX4 exIdx4).1.getD 2 []
        = exX4.getD ((argsort exIdx4.flatten).getD 2 0 / (exIdx4.headD []).length) [] :=
  ⟨(gather_sort_postcondition exX4 exIdx4).1,
   (gather_sort_postcondition exX4 exIdx4).2.1,
   ⟨by decide, by decide, by decide⟩,
   (gather_sort_postcondition exX4 exIdx4).2.2.2.2.1 1 2 (by decide) (by decide)
      (by decide),
   by decide,
   (gather_sort_postcondition exX4 exIdx4).2.2.2.2.2 2 (by decide)⟩

/-- C2: on well-shaped inputs (`x : [NT, D]`, `indices : [NT, K]`, index
values below `num_experts`, the block's default bias-free projections),
`SwitchGLU`'s apply returns output of shape `[NT, K, input_dims]` whose
value at each (token, slot) pair equals
`down_proj(activation(gate_proj(x, i)) * up_proj(x, i))` for that token's
activation and that slot's own expert index `i` — so each of a token's `K`
slots is computed independently, even when two slots name the same expert. -/
theorem switchglu_apply_functional_correctness (m : SwitchGLU) (x : List Vec)
    (indices : List (List ℕ)) (K : ℕ)
    (hbg : m.gate_proj.bias = none) (hbu : m.up_proj.bias = none)
    (hbd : m.down_proj.bias = none)
    (hU : ∀ r ∈ indices, r.length = K) (hx : x.length = indices.length)
    (hw : ∀ wm ∈ m.down_proj.weight, wm.length = m.down_proj.output_dims)
    (hidx : ∀ r ∈ indices, ∀ i ∈ r, i < m.down_proj.num_experts) :
    (m.call x indices).length = indices.length
    ∧ (∀ t, t < indices.length → ((m.call x indices).getD t []).length = K)
    ∧ (∀ t k, t < indices.length → k < K →
        ((m.call x indices).getD t []).getD k []
          = matvecT (m.down_proj.weight.getD ((indices.getD t []).getD k 0) [])
              (List.zipWith (· * ·)
                ((matvecT (m.gate_proj.weight.getD ((indices.getD t []).getD k 0) [])
                    (x.getD t [])).map m.activation)
                (matvecT (m.up_proj.weight.getD ((indices.getD t []).getD k 0) [])
                  (x.getD t []))))
    ∧ (∀ t k, t < indices.length → k < K →
        (((m.call x indices).getD t []).getD k []).length = m.down_proj.output_dims) := by
  have hpt : ∀ t k, t < indices.length → k < K →
      ((m.call x indices).getD t []).getD k []
        = matvecT (m.down_proj.weight.getD ((indices.getD t []).getD k 0) [])
            (List.zipWith (· * ·)
              ((matvecT (m.gate_proj.weight.getD ((indices.getD t []).getD k 0) [])
                  (x.getD t [])).map m.activation)
              (matvecT (m.up_proj.weight.getD ((indices.getD t []).getD k 0) [])
                (x.getD t []))) := by
    intro t k ht hk
    rw [glu_call_getD m x indices K hU hx ht hk,
      glu_unit_singleton m hbg hbu hbd]
    rfl
  refine ⟨glu_call_length m x indices K hU hx,
    fun t ht => glu_call_row_length m x indices K hU hx ht, hpt, ?_⟩
  intro t k ht hk
  rw [hpt t k ht hk, matvecT_length]
  have h1 : indices.getD t [] ∈ indices := by
    rw [List.getD_eq_getElem indices _ ht]
    exact List.getElem_mem _
  have hrl : (indices.getD t []).length = K := hU _ h1
  have h2 : (indices.getD t []).getD k 0 ∈ indices.getD t [] := by
    rw [List.getD_eq_getElem (indices.getD t []) 0
      (show k < (indices.getD t []).length by omega)]
    exact List.getElem_mem _
  have hiE : (indices.getD t []).getD k 0 < m.down_proj.weight.length :=
    hidx _ h1 _ h2
  rw [List.getD_eq_getElem _ _ hiE]
  exact hw _ (List.getElem_mem _)

theorem switchglu_apply_functional_correctness_witness :
    ((∀ r ∈ exIdx, r.length = 2) ∧ exX.length = exIdx.length
      ∧ (∀ wm ∈ exGLU.down_proj.weight, wm.length = exGLU.down_proj.output_dims)
      ∧ (∀ r ∈ exIdx, ∀ i ∈ r, i < exGLU.down_proj.num_experts))
    ∧ ((exGLU.call exX exIdx).getD 1 []).getD 0 []
        = matvecT (exGLU.down_proj.weight.getD ((exIdx.getD 1 []).getD 0 0) [])
            (List.zipWith (· * ·)
              ((matvecT (exGLU.gate_proj.weight.getD ((exIdx.getD 1 []).getD 0 0) [])
                  (exX.getD 1 [])).map exGLU.activation)
              (matvecT (exGLU.up_proj.weight.getD ((exIdx.getD 1 []).getD 0 0) [])
                (exX.getD 1 [])))
    ∧ (exGLU.call exX exIdx).length = exIdx.length :=
  ⟨⟨by decide, by decide, by decide, by decide⟩,
   (switchglu_apply_functional_correctness exGLU exX exIdx 2 rfl rfl rfl (by decide)
      (by decide) (by decide) (by decide)).2.2.1 1 0 (by decide) (by decide),
   (switchglu_apply_functional_correctness exGLU exX exIdx 2 rfl rfl rfl (by decide)
      (by decide) (by decide) (by decide)).1⟩

/-- C6: on well-shaped inputs, `SwitchMLP`'s apply computes per (token,
slot) pair `fc2(activation(fc1(x, i)), i)` — exactly two indexed linear
units with a single activation between them and no gating multiply — with
the same expand/sort/unsort scaffolding as `SwitchGLU`, returning output of
shape `[NT, K, input_dims]`. -/
theorem switchmlp_apply_functional_correctness (m : SwitchMLP) (x : List Vec)
    (indices : List (List ℕ)) (K : ℕ)
    (hb1 : m.fc1.bias = none) (hb2 : m.fc2.bias = none)
    (hU : ∀ r ∈ indices, r.length = K) (hx : x.length = indices.length)
    (hw : ∀ wm ∈ m.fc2.weight, wm.length = m.fc2.output_dims)
    (hidx : ∀ r ∈ indices, ∀ i ∈ r, i < m.fc2.num_experts) :
    (m.call x indices).length = indices.length
    ∧ (∀ t, t < indices.length → ((m.call x indices).getD t []).length = K)
    ∧ (∀ t k, t < indices.length → k < K →
        ((m.call x indices).getD t []).getD k []
          = matvecT (m.fc2.weight.getD ((indices.getD t []).getD k 0) [])
              ((matvecT (m.fc1.weight.getD ((indices.getD t []).getD k 0) [])
                  (x.getD t [])).map m.activation))
    ∧ (∀ t k, t < indices.length → k < K →
        (((m.call x indices).getD t []).getD k []).length = m.fc2.output_dims) := by
  have hpt : ∀ t k, t < indices.length → k < K →
      ((m.call x indices).getD t []).getD k []
        = matvecT (m.fc2.weight.getD ((indices.getD t []).getD k 0) [])
            ((matvecT (m.fc1.weight.getD ((indices.getD t []).getD k 0) [])
                (x.getD t [])).map m.activation) := by
    intro t k ht hk
    rw [mlp_call_getD m x indices K hU hx ht hk,
      mlp_unit_singleton m hb1 hb2]
    rfl
  refine ⟨mlp_call_length m x indices K hU hx,
    fun t ht => mlp_call_row_length m x indices K hU hx ht, hpt, ?_⟩
  intro t k ht hk
  rw [hpt t k ht hk, matvecT_length]
  have h1 : indices.getD t [] ∈ indices := by
    rw [List.getD_eq_getElem indices _ ht]
    exact List.getElem_mem _
  have hrl : (indices.getD t []).length = K := hU _ h1
  have h2 : (indices.getD t []).getD k 0 ∈ indices.getD t [] := by
    rw [List.getD_eq_getElem (indices.getD t []) 0
      (show k < (indices.getD t []).length by omega)]
    exact List.getElem_mem _
  have hiE : (indices.getD t []).getD k 0 < m.fc2.weight.length := hidx _ h1 _ h2
  rw [List.getD_eq_getElem _ _ hiE]
  exact hw _ (List.getElem_mem _)

theorem switchmlp_apply_functional_correctness_witness :
    ((∀ r ∈ exIdx, r.length = 2) ∧ exX.length = exIdx.length
      ∧ (∀ wm ∈ exMLP.fc2.weight, wm.length = exMLP.fc2.output_dims)
      ∧ (∀ r ∈ exIdx, ∀ i ∈ r, i < exMLP.fc2.num_experts))
    ∧ ((exMLP.call exX exIdx).getD 2 []).getD 1 []
        = matvecT (exMLP.fc2.weight.getD ((exIdx.getD 2 []).getD 1 0) [])
            ((matvecT (exMLP.fc1.weight.getD ((exIdx.getD 2 []).getD 1 0) [])
                (exX.getD 2 [])).map exMLP.activation)
    ∧ (exMLP.call exX exIdx).length = exIdx.length :=
  ⟨⟨by decide, by decide, by decide, by decide⟩,
   (switchmlp_apply_functional_correctness exMLP exX exIdx 2 rfl rfl (by decide)
      (by decide) (by decide) (by decide)).2.2.1 2 1 (by decide) (by decide),
   (switchmlp_apply_functional_correctness exMLP exX exIdx 2 rfl rfl (by decide)
      (by decide) (by decide) (by decide)).1⟩

/-- C5: for every logical unit `u` (with `u` in range of both operands and
index value below `num_experts`), the plain `SwitchLinear` apply produces,
at unit `u` with expert `i = indices[u]`, the rows of `x[u]` multiplied by
`weight[i]` transposed; when a bias is stored, `bias[i]` is added after the
matmul, selected by the same indices and broadcast over the extra singleton
leading row dimension that `x` has but `indices` does not; on well-shaped
weights the result's last dimension is `output_dims`. -/
theorem switchlinear_indexed_apply (sl : SwitchLinear) (x : List Mat)
    (indices : List ℕ) (s : Bool) (u : ℕ) (hux : u < x.length)
    (hui : u < indices.length) :
    (sl.bias = none →
      (sl.call x indices s).getD u []
        = ((x.getD u []).map fun r => matvecT (sl.weight.getD (indices.getD u 0) []) r))
    ∧ (∀ b, sl.bias = some b →
      (sl.call x indices s).getD u []
        = ((x.getD u []).map fun r =>
            vadd (matvecT (sl.weight.getD (indices.getD u 0) []) r)
              (b.getD (indices.getD u 0) [])))
    ∧ ((∀ wm ∈ sl.weight, wm.length = sl.output_dims) →
       (∀ bm, sl.bias = some bm →
          bm.length = sl.num_experts ∧ ∀ rb ∈ bm, rb.length = sl.output_dims) →
       indices.getD u 0 < sl.num_experts →
       ∀ r' ∈ (sl.call x indices s).getD u [], r'.length = sl.output_dims) := by
  have hcall : (sl.call x indices s).getD u []
      = sl.unit (x.getD u []) (indices.getD u 0) := by
    rw [SwitchLinear.call_eq]
    exact getD_zipWith_of_lt _ _ _ _ _ [] 0 hux hui
  have hWlen : indices.getD u 0 < sl.num_experts →
      ∀ _ : (∀ wm ∈ sl.weight, wm.length = sl.output_dims),
      (sl.weight.getD (indices.getD u 0) []).length = sl.output_dims := by
    intro hi hwf
    rw [List.getD_eq_getElem _ _ hi]
    exact hwf _ (List.getElem_mem _)
  refine ⟨?_, ?_, ?_⟩
  · intro hb
    rw [hcall, SwitchLinear.unit_none hb]
  · intro b hb
    rw [hcall, SwitchLinear.unit_some hb]
  · intro hwf hbf hi r' hr'
    rw [hcall] at hr'
    cases hb : sl.bias with
    | none =>
      rw [SwitchLinear.unit_none hb] at hr'
      obtain ⟨r, _, rfl⟩ := List.mem_map.mp hr'
      rw [matvecT_length]
      exact hWlen hi hwf
    | some b =>
      rw [SwitchLinear.unit_some hb] at hr'
      obtain ⟨r, _, rfl⟩ := List.mem_map.mp hr'
      unfold vadd
      rw [List.length_zipWith, matvecT_length, hWlen hi hwf]
      have hbi : (b.getD (indices.getD u 0) []).length = sl.output_dims := by
        rw [List.getD_eq_getElem _ _ (by rw [(hbf b hb).1]; exact hi)]
        exact (hbf b hb).2 _ (List.getElem_mem _)
      rw [hbi]
      simp

theorem switchlinear_indexed_apply_witness :
    (0 < exX4.length ∧ 0 < ([1, 0] : List ℕ).length)
    ∧ (∀ b, exBiasLin.bias = some b →
      (exBiasLin.call exX4 [1, 0] false).getD 0 []
        = ((exX4.getD 0 []).map fun r =>
            vadd (matvecT (exBiasLin.weight.getD (([1, 0] : List ℕ).getD 0 0) []) r)
              (b.getD (([1, 0] : List ℕ).getD 0 0) [])))
    ∧ (∀ r' ∈ (exBiasLin.call exX4 [1, 0] false).getD 0 [],
        r'.length = exBiasLin.output_dims) :=
  ⟨⟨by decide, by decide⟩,
   (switchlinear_indexed_apply exBiasLin exX4 [1, 0] false 0 (by decide)
      (by decide)).2.1,
   (switchlinear_indexed_apply exBiasLin exX4 [1, 0] false 0 (by decide)
      (by decide)).2.2 (by decide) (by decide) (by decide)⟩

/-- C7: for every well-shaped plain `SwitchLinear` (nonempty `[E, H, D]`
weight, positive group size dividing `D`), `to_quantized(group_size, bits)`
returns a quantized unit whose `num_experts`, `output_dims` and `input_dims`
equal the source's, whose `bias` equals the source's bias unchanged, and the
conversion leaves the source unit itself unchanged (in the explicit
state-passing form of the method, the post-state equals the pre-state; the
model is pure, so the two units share no mutable state). -/
theorem to_quantized_frame (sl : SwitchLinear) (g b E H D : ℕ)
    (hE : sl.weight.length = E)
    (hW : ∀ wm ∈ sl.weight, wm.length = H ∧ ∀ r ∈ wm, r.length = D)
    (hEpos : 0 < E) (hHpos : 0 < H) (hg : 0 < g) (hdvd : g ∣ D) :
    (sl.to_quantized g b).num_experts = sl.num_experts
    ∧ (sl.to_quantized g b).output_dims = sl.output_dims
    ∧ (sl.to_quantized g b).input_dims = sl.input_dims
    ∧ (sl.to_quantized g b).bias = sl.bias
    ∧ (sl.to_quantized_step g b).2 = sl := by
  have hm0 : sl.weight.getD 0 [] ∈ sl.weight := by
    rw [List.getD_eq_getElem _ _ (by omega)]
    exact List.getElem_mem _
  have hm0len : (sl.weight.getD 0 []).length = H := (hW _ hm0).1
  have hr0 : (sl.weight.getD 0 []).getD 0 [] ∈ sl.weight.getD 0 [] := by
    rw [List.getD_eq_getElem (sl.weight.getD 0 []) []
      (show 0 < (sl.weight.getD 0 []).length by omega)]
    exact List.getElem_mem _
  have hr0len : ((sl.weight.getD 0 []).getD 0 []).length = D := (hW _ hm0).2 _ hr0
  refine ⟨?_, ?_, ?_, rfl, rfl⟩
  · simp [SwitchLinear.to_quantized, quantize, QuantizedSwitchLinear.num_experts,
      SwitchLinear.num_experts]
  · show ((sl.weight.map fun m =>
        m.map fun r => ((groupChunks g r).map (levelsOf b)).flatten).headD []).length
      = (sl.weight.headD []).length
    rw [headD_map_of_pos _ _ [] [] (by omega), headD_eq_getD, List.length_map]
  · show (((sl.weight.map fun m =>
        m.map fun r => (groupChunks g r).map (scaleOf b)).headD []).headD []).length * g
      = ((sl.weight.headD []).headD []).length
    rw [headD_map_of_pos _ _ [] [] (by omega),
      headD_map_of_pos _ _ [] [] (by omega : 0 < (sl.weight.getD 0 []).length),
      List.length_map, groupChunks_length, hr0len, headD_eq_getD, headD_eq_getD,
      hr0len]
    exact Nat.div_mul_cancel hdvd

theorem to_quantized_frame_witness :
    (exBiasLin.weight.length = 2
      ∧ (∀ wm ∈ exBiasLin.weight, wm.length = 2 ∧ ∀ r ∈ wm, r.length = 2)
      ∧ (0 : ℕ) < 2 ∧ (2 : ℕ) ∣ 2)
    ∧ (exBiasLin.to_quantized 2 4).input_dims = exBiasLin.input_dims
    ∧ (exBiasLin.to_quantized 2 4).bias = exBiasLin.bias :=
  ⟨⟨by decide, by decide, by decide, by decide⟩,
   (to_quantized_frame exBiasLin 2 4 2 2 2 (by decide) (by decide) (by decide)
      (by decide) (by decide) (by decide)).2.2.1,
   (to_quantized_frame exBiasLin 2 4 2 2 2 (by decide) (by decide) (by decide)
      (by decide) (by decide) (by decide)).2.2.2.1⟩

/-- C8: a unit constructed with parameters `(input_dims, output_dims,
num_experts)` (with any bias flag, and for the quantized unit any valid
`group_size` dividing `input_dims`) reports exactly those construction
values through its read-only properties, which are derived only from the
stored tensor shapes — `weight.shape` for the plain unit; `weight.shape`,
`scales.shape` and `group_size` (`input_dims = scales.shape[2] *
group_size`) for the quantized unit. -/
theorem property_introspection (D H E : ℕ) (w wq : ℕ → ℕ → ℕ → ℚ)
    (bias biasq : Bool) (g bt : ℕ) (hE : 0 < E) (hH : 0 < H) (hg : 0 < g)
    (hdvd : g ∣ D) :
    (SwitchLinear.init D H E w bias).input_dims = D
    ∧ (SwitchLinear.init D H E w bias).output_dims = H
    ∧ (SwitchLinear.init D H E w bias).num_experts = E
    ∧ (QuantizedSwitchLinear.init D H E wq biasq g bt).input_dims = D
    ∧ (QuantizedSwitchLinear.init D H E wq biasq g bt).output_dims = H
    ∧ (QuantizedSwitchLinear.init D H E wq biasq g bt).num_experts = E := by
  refine ⟨?_, ?_, ?_, ?_, ?_, ?_⟩
  · show (((genWeight E H D w).headD []).headD []).length = D
    rw [genWeight_headD E H D w hE,
      headD_map_of_pos _ _ [] 0 (by simpa using hH)]
    simp
  · show ((genWeight E H D w).headD []).length = H
    rw [genWeight_headD E H D w hE]
    simp
  · show (genWeight E H D w).length = E
    exact genWeight_length E H D w
  · show ((((genWeight E H D wq).map fun m =>
        m.map fun r => (groupChunks g r).map (scaleOf bt)).headD []).headD []).length * g
      = D
    rw [headD_map_of_pos _ _ [] [] (by rw [genWeight_length]; exact hE),
      genWeight_getD0 E H D wq hE, List.map_map,
      headD_map_of_pos _ _ [] 0 (by simpa using hH),
      getD_range_of_lt H 0 0 hH]
    simp only [Function.comp_apply, List.length_map, List.length_range,
      groupChunks_length]
    exact Nat.div_mul_cancel hdvd
  · show (((genWeight E H D wq).map fun m =>
        m.map fun r => ((groupChunks g r).map (levelsOf bt)).flatten).headD []).length = H
    rw [headD_map_of_pos _ _ [] [] (by rw [genWeight_length]; exact hE),
      List.length_map, genWeight_getD0 E H D wq hE]
    simp
  · show ((genWeight E H D wq).map fun m =>
        m.map fun r => ((groupChunks g r).map (levelsOf bt)).flatten).length = E
    rw [List.length_map]
    exact genWeight_length E H D wq

theorem property_introspection_witness :
    ((0 : ℕ) < 3 ∧ (0 : ℕ) < 2 ∧ (0 : ℕ) < 2 ∧ (2 : ℕ) ∣ 4)
    ∧ (SwitchLinear.init 4 2 3 (fun _ _ d => (d : ℚ)) true).input_dims = 4
    ∧ (QuantizedSwitchLinear.init 4 2 3 (fun _ _ d => (d : ℚ)) true 2 4).input_dims = 4
    ∧ (QuantizedSwitchLinear.init 4 2 3 (fun _ _ d => (d : ℚ)) true 2 4).num_experts = 3 :=
  ⟨⟨by decide, by decide, by decide, by decide⟩,
   (property_introspection 4 2 3 (fun _ _ d => (d : ℚ)) (fun _ _ d => (d : ℚ))
      true true 2 4 (by decide) (by decide) (by decide) (by decide)).1,
   (property_introspection 4 2 3 (fun _ _ d => (d : ℚ)) (fun _ _ d => (d : ℚ))
      true true 2 4 (by decide) (by decide) (by decide) (by decide)).2.2.2.1,
   (property_introspection 4 2 3 (fun _ _ d => (d : ℚ)) (fun _ _ d => (d : ℚ))
      true true 2 4 (by decide) (by decide) (by decide) (by decide)).2.2.2.2.2⟩

/-- C9: every operation of the core is a deterministic pure function of its
inputs.  In the explicit state-passing embedding of each method body (which
transcribes every assignment the source makes to `self` — there are none),
the apply of each unit and block, and the conversion, return the module
state unchanged: stored weight and bias tensors are never mutated, and the
output component coincides with the pure `call` function of the inputs, so
two calls on equal inputs and equal stored weights yield equal outputs. -/
theorem core_operations_pure (sl : SwitchLinear) (q : QuantizedSwitchLinear)
    (mg : SwitchGLU) (mp : SwitchMLP) (xf : List Mat) (idxf : List ℕ) (s : Bool)
    (x : List Vec) (indices : List (List ℕ)) (g bits : ℕ) :
    (sl.step xf idxf s).2 = sl
    ∧ (sl.step xf idxf s).1 = sl.call xf idxf s
    ∧ (q.step xf idxf s).2 = q
    ∧ (q.step xf idxf s).1 = q.call xf idxf s
    ∧ (mg.step x indices).2 = mg
    ∧ (mg.step x indices).1 = mg.call x indices
    ∧ (mp.step x indices).2 = mp
    ∧ (mp.step x indices).1 = mp.call x indices
    ∧ (sl.to_quantized_step g bits).2 = sl
    ∧ (sl.to_quantized_step g bits).1 = sl.to_quantized g bits :=
  ⟨rfl, rfl, rfl, rfl, rfl, rfl, rfl, rfl, rfl, rfl⟩

/-- C10: the expert blocks construct every internal `SwitchLinear` with
their own `bias` parameter, which defaults to `False` — so by default no
projection inside a `SwitchGLU` or `SwitchMLP` has a bias — even though a
`SwitchLinear` constructed directly defaults to `bias=True` and stores a
zero bias of shape `[num_experts, output_dims]`. -/
theorem block_bias_defaults (input_dims hidden_dims num_experts : ℕ)
    (activation : ℚ → ℚ) (wg wu wd w1 w2 w : ℕ → ℕ → ℕ → ℚ) :
    (SwitchGLU.init input_dims hidden_dims num_experts activation wg wu wd).gate_proj.bias
        = none
    ∧ (SwitchGLU.init input_dims hidden_dims num_experts activation wg wu wd).up_proj.bias
        = none
    ∧ (SwitchGLU.init input_dims hidden_dims num_experts activation wg wu wd).down_proj.bias
        = none
    ∧ (SwitchMLP.init input_dims hidden_dims num_experts activation w1 w2).fc1.bias
        = none
    ∧ (SwitchMLP.init input_dims hidden_dims num_experts activation w1 w2).fc2.bias
        = none
    ∧ (SwitchLinear.init input_dims hidden_dims num_experts w).bias
        = some (zerosM num_experts hidden_dims) :=
  ⟨rfl, rfl, rfl, rfl, rfl, rfl⟩
